import Mathlib

/-!
# Verification of the `undonete` linear command manager

Shallow embedding of `LinearCommandManager` (src, `commands.ts`): a generic
command-execution manager with linear undo/redo history.

Embedding conventions:
* The mutable `Model` is threaded explicitly: a TS handler function that
  mutates the model in place becomes a Lean function returning the new model.
* The manager's private mutable fields `undoStack` / `redoStack` become a
  `ManagerState` record threaded through the operations; the readonly
  `commandTypeRegistry` field becomes an explicit `reg` parameter.
* TS arrays used as stacks (`push`/`pop` at the end) are modelled as Lean
  lists with the head as the stack top (push = cons, pop = head/tail).
* The heterogeneous per-kind instruction and result types of the registry are
  modelled by fixing one instruction type `I` and one execution-result payload
  type `R` for all kinds; a concrete registry instantiates them with sum
  types. The dynamics of the manager are unchanged by this.
* `hadEffect?: boolean | undefined` becomes `Option Bool` (`none` = absent).
-/

/-- `CommandExecutionResult<T>`: tagged outcome of a handler's `execute`.
`success` carries the result payload and the optional `hadEffect` flag
(`none` models the field being absent); `failure` carries an error message. -/
inductive CommandExecutionResult (T : Type) : Type where
  | success (result : T) (hadEffect : Option Bool)
  | failure (errorMessage : String)
deriving DecidableEq, Repr

/-- `CommandHandlerWithExecutionResult<Model, Instruction, ExecutionResult>`:
the triple of functions bound to one command kind. `execute` may mutate the
model and returns a `CommandExecutionResult`; `undo`/`redo` mutate the model
given the captured instruction and execution result (the TS params object
`\x7bmodel, instruction, executionResult\x7d` is passed positionally). -/
structure CommandHandlerWithExecutionResult (Model Instruction ExecutionResult : Type) where
  execute : Model → Instruction → Model × CommandExecutionResult ExecutionResult
  undo : Model → Instruction → ExecutionResult → Model
  redo : Model → Instruction → ExecutionResult → Model

/-- `CommandTypeRegistry`: the fixed mapping from command-kind identifiers to
handlers (`K` plays the role of `PossibleKeys`). -/
def CommandTypeRegistry (Model K Instruction ExecutionResult : Type) : Type :=
  K → CommandHandlerWithExecutionResult Model Instruction ExecutionResult

/-- A history entry (`AnyCommandWithResult` / Done Command):
`\x7bcommandType, instruction, executionResult\x7d`, where `executionResult`
stores `result.result`, the success payload captured at execute time. -/
structure DoneCommand (K Instruction ExecutionResult : Type) where
  commandType : K
  instruction : Instruction
  executionResult : ExecutionResult
deriving DecidableEq, Repr

/-- The manager's private mutable state: the two history stacks
(`private undoStack` / `private redoStack`), list head = stack top. -/
structure ManagerState (K Instruction ExecutionResult : Type) where
  undoStack : List (DoneCommand K Instruction ExecutionResult)
  redoStack : List (DoneCommand K Instruction ExecutionResult)
deriving DecidableEq, Repr

variable {M K I R : Type}

/-- The state of a freshly constructed `LinearCommandManager`: both stacks
are initialised to empty arrays. -/
def initState (K I R : Type) : ManagerState K I R := ⟨[], []⟩

/-- `private clearRedoStack()`: `this.redoStack.splice(0, this.redoStack.length)`
removes every element of the redo stack and touches nothing else. -/
def clearRedoStack (st : ManagerState K I R) : ManagerState K I R :=
  { st with redoStack := [] }

/-- `executeCommand(commandType, instruction, model)`: looks up the handler,
runs `execute`; on failure returns the result with history untouched; on
success, if `result.hadEffect || result.hadEffect === undefined`, clears the
redo stack and pushes `\x7bcommandType, instruction, executionResult: result.result\x7d`
onto the undo stack; returns the result. Returns
`(returned result, new manager state, model after the handler ran)`. -/
def executeCommand (reg : CommandTypeRegistry M K I R) (st : ManagerState K I R)
    (commandType : K) (instruction : I) (model : M) :
    CommandExecutionResult R × ManagerState K I R × M :=
  let commandHandler := reg commandType
  let (model', result) := commandHandler.execute model instruction
  match result with
  | .failure errorMessage => (.failure errorMessage, st, model')
  | .success r hadEffect =>
    -- Only save the command if it had effect
    if hadEffect = some true ∨ hadEffect = none then
      let st' := clearRedoStack st
      (.success r hadEffect,
        { st' with
          undoStack := ⟨commandType, instruction, r⟩ :: st'.undoStack },
        model')
    else
      (.success r hadEffect, st, model')

/-- `undo(model)`: pops the undo stack; if empty returns `false` leaving
everything unchanged, otherwise invokes the popped command's handler's `undo`
with the captured instruction and execution result, pushes the command onto
the redo stack and returns `true`. Returns
`(boolean result, new manager state, new model)`. -/
def undo (reg : CommandTypeRegistry M K I R) (st : ManagerState K I R) (model : M) :
    Bool × ManagerState K I R × M :=
  match st.undoStack with
  | [] => (false, st, model)
  | command :: rest =>
    let commandHandler := reg command.commandType
    let model' := commandHandler.undo model command.instruction command.executionResult
    (true, ⟨rest, command :: st.redoStack⟩, model')

/-- `redo(model)`: symmetric to `undo` with the two stacks swapped and the
handler's `redo` invoked. -/
def redo (reg : CommandTypeRegistry M K I R) (st : ManagerState K I R) (model : M) :
    Bool × ManagerState K I R × M :=
  match st.redoStack with
  | [] => (false, st, model)
  | command :: rest =>
    let commandHandler := reg command.commandType
    let model' := commandHandler.redo model command.instruction command.executionResult
    (true, ⟨command :: st.undoStack, rest⟩, model')

/-- `get commands`: the Proxy whose `get` trap returns, for each command
type, a closure `(instruction, model) => this.executeCommand(commandType,
instruction, model)`. -/
def commands (reg : CommandTypeRegistry M K I R) (st : ManagerState K I R) (commandType : K) :
    I → M → CommandExecutionResult R × ManagerState K I R × M :=
  fun instruction model => executeCommand reg st commandType instruction model

/-- Runs a list of `(commandType, instruction)` pairs through `executeCommand`
sequentially, discarding the returned results (state and model are kept). -/
def runExec (reg : CommandTypeRegistry M K I R) :
    List (K × I) → ManagerState K I R → M → ManagerState K I R × M
  | [], st, m => (st, m)
  | (k, i) :: rest, st, m =>
    let p := executeCommand reg st k i m
    runExec reg rest p.2.1 p.2.2

/-- Calls `undo` `n` times in sequence, discarding the boolean results. -/
def runUndo (reg : CommandTypeRegistry M K I R) :
    Nat → ManagerState K I R → M → ManagerState K I R × M
  | 0, st, m => (st, m)
  | n + 1, st, m =>
    let p := undo reg st m
    runUndo reg n p.2.1 p.2.2

/-- Calls `redo` `n` times in sequence, discarding the boolean results. -/
def runRedo (reg : CommandTypeRegistry M K I R) :
    Nat → ManagerState K I R → M → ManagerState K I R × M
  | 0, st, m => (st, m)
  | n + 1, st, m =>
    let p := redo reg st m
    runRedo reg n p.2.1 p.2.2

/-- The undo half of the handler contract: `undo` restores the model to its
state before the matching `execute`. -/
def HandlerUndoContract (h : CommandHandlerWithExecutionResult M I R) : Prop :=
  ∀ (m : M) (i : I) (m' : M) (r : R) (he : Option Bool),
    h.execute m i = (m', .success r he) → h.undo m' i r = m

/-- The handler contract assumed by the spec's round-trip properties:
`undo` restores the model to its state before the matching `execute`, and
`redo` re-applies the same mutation that `execute` performed. -/
def HandlerContract (h : CommandHandlerWithExecutionResult M I R) : Prop :=
  ∀ (m : M) (i : I) (m' : M) (r : R) (he : Option Bool),
    h.execute m i = (m', .success r he) →
    h.undo m' i r = m ∧ h.redo m i r = m'

/-- A run of commands is effectful and successful from model `m`: each
`execute` in sequence returns `success` with `hadEffect` not explicitly
`false`. -/
inductive EffectfulFrom (reg : CommandTypeRegistry M K I R) : M → List (K × I) → Prop where
  | nil (m : M) : EffectfulFrom reg m []
  | cons {m : M} {k : K} {i : I} {m' : M} {r : R} {he : Option Bool} {cs : List (K × I)}
      (hx : (reg k).execute m i = (m', .success r he))
      (hne : he ≠ some false)
      (htail : EffectfulFrom reg m' cs) :
      EffectfulFrom reg m ((k, i) :: cs)

/-- The undo stack records genuine past executions: reading the stack from
the top, each entry was produced by an `execute` of its command type and
instruction from some earlier model state, yielding the model state the next
shallower entry (or the current model) was executed from. This holds in every
state reachable by the manager's operations, since entries are only created
by `executeCommand` at the moment of a successful execute. -/
inductive UndoStackOK (reg : CommandTypeRegistry M K I R) :
    M → List (DoneCommand K I R) → Prop where
  | nil (m : M) : UndoStackOK reg m []
  | cons {m₀ m : M} {c : DoneCommand K I R} {rest : List (DoneCommand K I R)}
      (he : Option Bool)
      (hx : (reg c.commandType).execute m₀ c.instruction = (m, .success c.executionResult he))
      (hrest : UndoStackOK reg m₀ rest) :
      UndoStackOK reg m (c :: rest)

/-- Entries recorded on the undo stack by a sequence of `executeCommand`
calls, in execution order: mirrors `executeCommand`'s recording logic (an
entry for each successful execute whose `hadEffect` is true or absent). -/
def doneEntries (reg : CommandTypeRegistry M K I R) :
    M → List (K × I) → List (DoneCommand K I R)
  | _, [] => []
  | m, (k, i) :: rest =>
    match (reg k).execute m i with
    | (m', .failure _) => doneEntries reg m' rest
    | (m', .success r he) =>
      if he = some true ∨ he = none then ⟨k, i, r⟩ :: doneEntries reg m' rest
      else doneEntries reg m' rest

/-- The spec's concrete scenario: from a fresh manager, execute `A`, execute
`B`, call `undo` twice, then execute `C`; returns the final manager state and
model. -/
def scenarioABC (reg : CommandTypeRegistry M K I R)
    (kA : K) (iA : I) (kB : K) (iB : I) (kC : K) (iC : I) (m0 : M) :
    ManagerState K I R × M :=
  let p1 := executeCommand reg (initState K I R) kA iA m0
  let p2 := executeCommand reg p1.2.1 kB iB p1.2.2
  let u1 := undo reg p2.2.1 p2.2.2
  let u2 := undo reg u1.2.1 u1.2.2
  let p3 := executeCommand reg u2.2.1 kC iC u2.2.2
  p3.2

/-! ## Ghost-instrumented variant for the identity invariant

The spec's disjointness invariant speaks about Done Command *instances*
("each Done Command instance is always in exactly one of two states"). A
shallow embedding has no object identity, so the operations are repeated
here with a ghost serial number attached to each history entry: the ghost
data is assigned at push time from a counter and never influences control
flow, so the instrumented operations are the same functions as the plain
ones up to erasing the ghost fields. -/

/-- A history entry together with its ghost identity. -/
structure DoneCommandG (K Instruction ExecutionResult : Type) where
  ghostId : Nat
  commandType : K
  instruction : Instruction
  executionResult : ExecutionResult
deriving DecidableEq, Repr

/-- Manager state with ghost-identified entries and the ghost counter. -/
structure ManagerStateG (K Instruction ExecutionResult : Type) where
  undoStack : List (DoneCommandG K Instruction ExecutionResult)
  redoStack : List (DoneCommandG K Instruction ExecutionResult)
  nextId : Nat
deriving DecidableEq, Repr

/-- `executeCommand` with ghost identities: identical to `executeCommand`
except the pushed entry carries the fresh ghost id. -/
def executeCommandG (reg : CommandTypeRegistry M K I R) (st : ManagerStateG K I R)
    (commandType : K) (instruction : I) (model : M) :
    CommandExecutionResult R × ManagerStateG K I R × M :=
  let commandHandler := reg commandType
  let (model', result) := commandHandler.execute model instruction
  match result with
  | .failure errorMessage => (.failure errorMessage, st, model')
  | .success r hadEffect =>
    if hadEffect = some true ∨ hadEffect = none then
      (.success r hadEffect,
        ⟨⟨st.nextId, commandType, instruction, r⟩ :: st.undoStack, [], st.nextId + 1⟩,
        model')
    else
      (.success r hadEffect, st, model')

/-- `undo` with ghost identities: the moved entry is moved as-is. -/
def undoG (reg : CommandTypeRegistry M K I R) (st : ManagerStateG K I R) (model : M) :
    Bool × ManagerStateG K I R × M :=
  match st.undoStack with
  | [] => (false, st, model)
  | command :: rest =>
    let commandHandler := reg command.commandType
    let model' := commandHandler.undo model command.instruction command.executionResult
    (true, ⟨rest, command :: st.redoStack, st.nextId⟩, model')

/-- `redo` with ghost identities: the moved entry is moved as-is. -/
def redoG (reg : CommandTypeRegistry M K I R) (st : ManagerStateG K I R) (model : M) :
    Bool × ManagerStateG K I R × M :=
  match st.redoStack with
  | [] => (false, st, model)
  | command :: rest =>
    let commandHandler := reg command.commandType
    let model' := commandHandler.redo model command.instruction command.executionResult
    (true, ⟨command :: st.undoStack, rest, st.nextId⟩, model')

/-- States (with their model) reachable from a fresh manager by any sequence
of `executeCommand`, `undo`, and `redo` operations. -/
inductive ReachableG (reg : CommandTypeRegistry M K I R) :
    ManagerStateG K I R → M → Prop where
  | init (m : M) : ReachableG reg ⟨[], [], 0⟩ m
  | exec {st : ManagerStateG K I R} {m : M} (k : K) (i : I)
      (h : ReachableG reg st m) :
      ReachableG reg (executeCommandG reg st k i m).2.1 (executeCommandG reg st k i m).2.2
  | undoStep {st : ManagerStateG K I R} {m : M} (h : ReachableG reg st m) :
      ReachableG reg (undoG reg st m).2.1 (undoG reg st m).2.2
  | redoStep {st : ManagerStateG K I R} {m : M} (h : ReachableG reg st m) :
      ReachableG reg (redoG reg st m).2.1 (redoG reg st m).2.2

/-- Ghost invariant: no ghost identity occurs twice across the two stacks
(so the stacks are disjoint and duplicate-free), and all ghost identities are
below the counter. -/
def GhostInv (st : ManagerStateG K I R) : Prop :=
  ((st.undoStack ++ st.redoStack).map DoneCommandG.ghostId).Nodup ∧
  ∀ c ∈ st.undoStack ++ st.redoStack, c.ghostId < st.nextId

/-! ## Concrete registries for witnesses and counterexamples

One-kind registries over a `List Nat` model. -/

/-- Handler that pushes its instruction (a number) onto the model list;
`undo` removes the head, `redo` pushes it back. -/
def pushHandler : CommandHandlerWithExecutionResult (List Nat) Nat Unit where
  execute := fun m i => (i :: m, .success () none)
  undo := fun m _ _ => m.tail
  redo := fun m i _ => i :: m

/-- One-kind registry containing only `pushHandler`. -/
def pushReg : CommandTypeRegistry (List Nat) Unit Nat Unit := fun _ => pushHandler

/-- A handler whose `execute` always fails, used to witness C5. -/
def failHandler : CommandHandlerWithExecutionResult (List Nat) Nat Unit where
  execute := fun m _ => (m, .failure "nope")
  undo := fun m _ _ => m
  redo := fun m _ _ => m

/-- One-kind registry containing only `failHandler`. -/
def failReg : CommandTypeRegistry (List Nat) Unit Nat Unit := fun _ => failHandler

/-- A handler that succeeds but reports `hadEffect: false`, to witness C6. -/
def noopHandler : CommandHandlerWithExecutionResult (List Nat) Nat Unit where
  execute := fun m _ => (m, .success () (some false))
  undo := fun m _ _ => m
  redo := fun m _ _ => m

/-- One-kind registry containing only `noopHandler`. -/
def noopReg : CommandTypeRegistry (List Nat) Unit Nat Unit := fun _ => noopHandler

/-! ## Unfolding lemmas -/

/-- `executeCommand` when the handler fails: the failure is returned and the
state is untouched. -/
theorem executeCommand_failure (reg : CommandTypeRegistry M K I R)
    (st : ManagerState K I R) (k : K) (i : I) (m m' : M) (e : String)
    (hx : (reg k).execute m i = (m', .failure e)) :
    executeCommand reg st k i m = (.failure e, st, m') := by
  simp [executeCommand, hx]

/-- `executeCommand` when the handler succeeds with effect (`hadEffect` not
explicitly `false`): the redo stack is cleared, one entry is pushed, and the
success result is returned. -/
theorem executeCommand_push (reg : CommandTypeRegistry M K I R)
    (st : ManagerState K I R) (k : K) (i : I) (m m' : M) (r : R) (he : Option Bool)
    (hx : (reg k).execute m i = (m', .success r he)) (hne : he ≠ some false) :
    executeCommand reg st k i m =
      (.success r he, ⟨⟨k, i, r⟩ :: st.undoStack, []⟩, m') := by
  have hcond : he = some true ∨ he = none := by
    rcases he with _ | b
    · exact Or.inr rfl
    · rcases b with _ | _
      · exact absurd rfl hne
      · exact Or.inl rfl
  simp [executeCommand, clearRedoStack, hx, hcond]

/-- `executeCommand` when the handler succeeds with `hadEffect` explicitly
`false`: the result is returned and the state is untouched. -/
theorem executeCommand_noEffect (reg : CommandTypeRegistry M K I R)
    (st : ManagerState K I R) (k : K) (i : I) (m m' : M) (r : R)
    (hx : (reg k).execute m i = (m', .success r (some false))) :
    executeCommand reg st k i m = (.success r (some false), st, m') := by
  simp [executeCommand, hx]

/-- `undo` on an empty undo stack: `false`, nothing changes. -/
theorem undo_nil (reg : CommandTypeRegistry M K I R) (st : ManagerState K I R) (m : M)
    (h : st.undoStack = []) : undo reg st m = (false, st, m) := by
  simp [undo, h]

/-- `undo` on a non-empty undo stack pops the top entry, applies the handler's
`undo`, and pushes the entry onto the redo stack. -/
theorem undo_cons (reg : CommandTypeRegistry M K I R) (st : ManagerState K I R) (m : M)
    (c : DoneCommand K I R) (rest : List (DoneCommand K I R))
    (h : st.undoStack = c :: rest) :
    undo reg st m = (true, ⟨rest, c :: st.redoStack⟩,
      (reg c.commandType).undo m c.instruction c.executionResult) := by
  simp [undo, h]

/-- `redo` on an empty redo stack: `false`, nothing changes. -/
theorem redo_nil (reg : CommandTypeRegistry M K I R) (st : ManagerState K I R) (m : M)
    (h : st.redoStack = []) : redo reg st m = (false, st, m) := by
  simp [redo, h]

/-- `redo` on a non-empty redo stack pops the top entry, applies the handler's
`redo`, and pushes the entry onto the undo stack. -/
theorem redo_cons (reg : CommandTypeRegistry M K I R) (st : ManagerState K I R) (m : M)
    (c : DoneCommand K I R) (rest : List (DoneCommand K I R))
    (h : st.redoStack = c :: rest) :
    redo reg st m = (true, ⟨c :: st.undoStack, rest⟩,
      (reg c.commandType).redo m c.instruction c.executionResult) := by
  simp [redo, h]

/-- `runUndo` splits a run of `a + b` undos into `a` undos followed by `b`. -/
theorem runUndo_add (reg : CommandTypeRegistry M K I R) (a b : Nat) :
    ∀ (st : ManagerState K I R) (m : M),
      runUndo reg (a + b) st m =
        runUndo reg b (runUndo reg a st m).1 (runUndo reg a st m).2 := by
  induction a with
  | zero => intro st m; simp [runUndo]
  | succ a ih =>
    intro st m
    rw [Nat.succ_add]
    simp only [runUndo]
    exact ih _ _

/-- `runRedo` splits a run of `a + b` redos into `a` redos followed by `b`. -/
theorem runRedo_add (reg : CommandTypeRegistry M K I R) (a b : Nat) :
    ∀ (st : ManagerState K I R) (m : M),
      runRedo reg (a + b) st m =
        runRedo reg b (runRedo reg a st m).1 (runRedo reg a st m).2 := by
  induction a with
  | zero => intro st m; simp [runRedo]
  | succ a ih =>
    intro st m
    rw [Nat.succ_add]
    simp only [runRedo]
    exact ih _ _

/-- `pushHandler` satisfies the handler contract. -/
theorem pushHandler_contract : HandlerContract pushHandler := by
  intro m i m' r he hx
  simp only [pushHandler, Prod.mk.injEq] at hx
  obtain ⟨h1, -⟩ := hx
  subst h1
  simp [pushHandler]

/-! ## Claim theorems -/

/-- C2: whenever the handler call inside `executeCommand` returns `Success`
with `hadEffect` true or omitted, `executeCommand` clears the redo stack
entirely (it becomes empty), pushes exactly one new history entry
`\x7bcommandType, instruction, executionResult = result.result\x7d` onto the
top of the undo stack, and returns the `Success` result to the caller. -/
theorem executeCommand_effectful_spec (reg : CommandTypeRegistry M K I R)
    (st : ManagerState K I R) (k : K) (i : I) (m m' : M) (r : R) (he : Option Bool)
    (hx : (reg k).execute m i = (m', .success r he)) (hne : he ≠ some false) :
    executeCommand reg st k i m =
      (.success r he, ⟨⟨k, i, r⟩ :: st.undoStack, []⟩, m') :=
  executeCommand_push reg st k i m m' r he hx hne

/-- Witness for C2: a concrete effectful execution on the push registry; the
previously non-empty redo stack is cleared and one entry is pushed. -/
theorem executeCommand_effectful_spec_witness :
    (pushReg ()).execute [5] 7 = ([7, 5], .success () none) ∧
    executeCommand pushReg ⟨[⟨(), 5, ()⟩], [⟨(), 9, ()⟩]⟩ () 7 [5] =
      (.success () none, ⟨[⟨(), 7, ()⟩, ⟨(), 5, ()⟩], []⟩, [7, 5]) :=
  ⟨rfl,
    executeCommand_effectful_spec pushReg ⟨[⟨(), 5, ()⟩], [⟨(), 9, ()⟩]⟩ () 7 [5]
      [7, 5] () none rfl (by decide)⟩

/-- C5: whenever the handler call inside `executeCommand` returns `Failure`,
`executeCommand` returns that result value unchanged (no exception is
possible: the embedding is a total function), and both history stacks are
left exactly as they were. -/
theorem executeCommand_failure_spec (reg : CommandTypeRegistry M K I R)
    (st : ManagerState K I R) (k : K) (i : I) (m m' : M) (e : String)
    (hx : (reg k).execute m i = (m', .failure e)) :
    executeCommand reg st k i m = (.failure e, st, m') :=
  executeCommand_failure reg st k i m m' e hx

/-- Witness for C5: a concrete failing execution; stacks are untouched. -/
theorem executeCommand_failure_spec_witness :
    executeCommand failReg ⟨[⟨(), 5, ()⟩], [⟨(), 9, ()⟩]⟩ () 7 [5] =
      (.failure "nope", ⟨[⟨(), 5, ()⟩], [⟨(), 9, ()⟩]⟩, [5]) :=
  executeCommand_failure_spec failReg ⟨[⟨(), 5, ()⟩], [⟨(), 9, ()⟩]⟩ () 7 [5] [5] "nope" rfl

/-- C6: whenever the handler call inside `executeCommand` returns `Success`
with `hadEffect` explicitly `false`, `executeCommand` returns the result but
changes neither stack: no history entry is created, the redo stack is not
cleared, and subsequent `undo`/`redo` behave exactly as if the call had not
happened. -/
theorem executeCommand_noEffect_spec (reg : CommandTypeRegistry M K I R)
    (st : ManagerState K I R) (k : K) (i : I) (m m' : M) (r : R)
    (hx : (reg k).execute m i = (m', .success r (some false))) :
    executeCommand reg st k i m = (.success r (some false), st, m') ∧
    (∀ m₂ : M, undo reg (executeCommand reg st k i m).2.1 m₂ = undo reg st m₂) ∧
    (∀ m₂ : M, redo reg (executeCommand reg st k i m).2.1 m₂ = redo reg st m₂) := by
  have h := executeCommand_noEffect reg st k i m m' r hx
  exact ⟨h, fun m₂ => by rw [h], fun m₂ => by rw [h]⟩

/-- Witness for C6: a concrete no-effect execution; the non-empty redo stack
survives and the undo stack is unchanged. -/
theorem executeCommand_noEffect_spec_witness :
    executeCommand noopReg ⟨[⟨(), 5, ()⟩], [⟨(), 9, ()⟩]⟩ () 7 [5] =
      (.success () (some false), ⟨[⟨(), 5, ()⟩], [⟨(), 9, ()⟩]⟩, [5]) ∧
    undo noopReg (executeCommand noopReg ⟨[⟨(), 5, ()⟩], [⟨(), 9, ()⟩]⟩ () 7 [5]).2.1 [5] =
      undo noopReg ⟨[⟨(), 5, ()⟩], [⟨(), 9, ()⟩]⟩ [5] :=
  ⟨(executeCommand_noEffect_spec noopReg ⟨[⟨(), 5, ()⟩], [⟨(), 9, ()⟩]⟩ () 7 [5] [5] () rfl).1,
    (executeCommand_noEffect_spec noopReg ⟨[⟨(), 5, ()⟩], [⟨(), 9, ()⟩]⟩ () 7 [5] [5] () rfl).2.1 [5]⟩

/-- C3: `undo(model)` returns `true` iff the undo stack is non-empty; on
`false` nothing changes (for every registry, so no handler can have been
consulted); on `true` it pops the top entry, invokes that entry's handler's
`undo` with the captured instruction and execution result, and pushes the
entry onto the redo stack. `redo` is symmetric with the stacks swapped and
the handler's `redo` invoked. -/
theorem undo_redo_spec (reg : CommandTypeRegistry M K I R)
    (st : ManagerState K I R) (m : M) :
    ((undo reg st m).1 = true ↔ st.undoStack ≠ []) ∧
    (st.undoStack = [] → undo reg st m = (false, st, m)) ∧
    (∀ (c : DoneCommand K I R) (rest : List (DoneCommand K I R)),
      st.undoStack = c :: rest →
        undo reg st m = (true, ⟨rest, c :: st.redoStack⟩,
          (reg c.commandType).undo m c.instruction c.executionResult)) ∧
    ((redo reg st m).1 = true ↔ st.redoStack ≠ []) ∧
    (st.redoStack = [] → redo reg st m = (false, st, m)) ∧
    (∀ (c : DoneCommand K I R) (rest : List (DoneCommand K I R)),
      st.redoStack = c :: rest →
        redo reg st m = (true, ⟨c :: st.undoStack, rest⟩,
          (reg c.commandType).redo m c.instruction c.executionResult)) := by
  refine ⟨?_, undo_nil reg st m, undo_cons reg st m, ?_, redo_nil reg st m, redo_cons reg st m⟩
  · cases h : st.undoStack with
    | nil => simp [undo_nil reg st m h, h]
    | cons c rest => simp [undo_cons reg st m c rest h, h]
  · cases h : st.redoStack with
    | nil => simp [redo_nil reg st m h, h]
    | cons c rest => simp [redo_cons reg st m c rest h, h]

/-- Witness for C3: a concrete successful `undo` (entry moves to the redo
stack, the handler's `undo` runs) and a concrete failing `redo` (empty redo
stack, nothing changes). -/
theorem undo_redo_spec_witness :
    undo pushReg ⟨[⟨(), 4, ()⟩], []⟩ [4] = (true, ⟨[], [⟨(), 4, ()⟩]⟩, []) ∧
    redo pushReg ⟨[⟨(), 4, ()⟩], []⟩ [4] = (false, ⟨[⟨(), 4, ()⟩], []⟩, [4]) :=
  ⟨(undo_redo_spec pushReg ⟨[⟨(), 4, ()⟩], []⟩ [4]).2.2.1 ⟨(), 4, ()⟩ [] rfl,
    (undo_redo_spec pushReg ⟨[⟨(), 4, ()⟩], []⟩ [4]).2.2.2.2.1 rfl⟩

/-- Auxiliary round-trip lemma for C1: running a successful, effectful batch
of commands and then as many undos restores the model, and restores the undo
stack to what it was before the batch. -/
theorem exec_undo_aux (reg : CommandTypeRegistry M K I R)
    (hc : ∀ k, HandlerUndoContract (reg k)) :
    ∀ {m : M} {cs : List (K × I)}, EffectfulFrom reg m cs →
      ∀ st : ManagerState K I R,
        (runUndo reg cs.length (runExec reg cs st m).1 (runExec reg cs st m).2).2 = m ∧
        (runUndo reg cs.length (runExec reg cs st m).1
            (runExec reg cs st m).2).1.undoStack = st.undoStack := by
  intro m cs h
  induction h with
  | nil m => intro st; simp [runExec, runUndo]
  | @cons m k i m' r he cs hx hne htail ih =>
    intro st
    have hpush := executeCommand_push reg st k i m m' r he hx hne
    have hrun : runExec reg ((k, i) :: cs) st m =
        runExec reg cs ⟨⟨k, i, r⟩ :: st.undoStack, []⟩ m' := by
      simp [runExec, hpush]
    have ih' := ih ⟨⟨k, i, r⟩ :: st.undoStack, []⟩
    rcases hQ : runUndo reg cs.length
        (runExec reg cs ⟨⟨k, i, r⟩ :: st.undoStack, []⟩ m').1
        (runExec reg cs ⟨⟨k, i, r⟩ :: st.undoStack, []⟩ m').2 with ⟨stU, mU⟩
    rw [hQ] at ih'
    obtain ⟨hm, hs⟩ := ih'
    simp only at hm hs
    have hundo := undo_cons reg stU mU ⟨k, i, r⟩ st.undoStack hs
    have hu : (reg k).undo m' i r = m := (hc k) m i m' r he hx
    rw [hrun, List.length_cons, runUndo_add reg cs.length 1, hQ]
    simp only [runUndo]
    rw [hundo]
    exact ⟨by show (reg k).undo mU i r = m; rw [hm, hu], rfl⟩

/-- C1: for every registry whose handlers satisfy the undo half of the
handler contract, any sequence of N effectful, successful `executeCommand`
calls followed by N `undo` calls (from any manager state) brings the model
back to its state before the sequence began. -/
theorem execute_undo_roundtrip (reg : CommandTypeRegistry M K I R)
    (hc : ∀ k, HandlerUndoContract (reg k))
    (cs : List (K × I)) (st : ManagerState K I R) (m : M)
    (heff : EffectfulFrom reg m cs) :
    (runUndo reg cs.length (runExec reg cs st m).1 (runExec reg cs st m).2).2 = m :=
  (exec_undo_aux reg hc heff st).1

/-- Witness for C1: pushing 1 then 2 onto the model `[5]` and undoing twice
restores `[5]`. -/
theorem execute_undo_roundtrip_witness :
    (runUndo pushReg ([((), 1), ((), 2)] : List (Unit × Nat)).length
      (runExec pushReg [((), 1), ((), 2)] (initState Unit Nat Unit) [5]).1
      (runExec pushReg [((), 1), ((), 2)] (initState Unit Nat Unit) [5]).2).2 = [5] :=
  execute_undo_roundtrip pushReg
    (fun k m i m' r he hx => (pushHandler_contract m i m' r he hx).1)
    [((), 1), ((), 2)] (initState Unit Nat Unit) [5]
    (.cons rfl (by decide) (.cons rfl (by decide) (.nil [2, 1, 5])))

/-- Auxiliary round-trip lemma for C4: `n` undos followed by `n` redos
restore both the manager state and the model, provided the undo stack
records genuine executions and holds at least `n` entries. -/
theorem undo_redo_aux (reg : CommandTypeRegistry M K I R)
    (hc : ∀ k, HandlerContract (reg k)) :
    ∀ (n : Nat) (st : ManagerState K I R) (m : M),
      UndoStackOK reg m st.undoStack → n ≤ st.undoStack.length →
      runRedo reg n (runUndo reg n st m).1 (runUndo reg n st m).2 = (st, m) := by
  intro n
  induction n with
  | zero => intro st m hok hlen; simp [runUndo, runRedo]
  | succ n ih =>
    intro st m hok hlen
    rcases hstack : st.undoStack with _ | ⟨c, rest⟩
    · rw [hstack] at hlen; simp at hlen
    · rw [hstack] at hok
      cases hok with
      | @cons m₀ _ _ _ he hx hrest =>
        have hcc := hc c.commandType m₀ c.instruction m c.executionResult he hx
        have hundo : undo reg st m = (true, ⟨rest, c :: st.redoStack⟩, m₀) := by
          rw [undo_cons reg st m c rest hstack, hcc.1]
        have hlen' : n ≤ rest.length := by
          rw [hstack] at hlen
          exact Nat.succ_le_succ_iff.mp hlen
        have ihh := ih ⟨rest, c :: st.redoStack⟩ m₀ hrest hlen'
        have hrunUndo : runUndo reg (n + 1) st m =
            runUndo reg n ⟨rest, c :: st.redoStack⟩ m₀ := by
          simp only [runUndo, hundo]
        rw [hrunUndo, runRedo_add reg n 1, ihh]
        simp only [runRedo]
        rw [redo_cons reg ⟨rest, c :: st.redoStack⟩ m₀ c st.redoStack rfl, hcc.2]
        rw [← hstack]

/-- C4: for every registry whose handlers satisfy the handler contract (undo
reverses the matching execute and redo re-applies it), any `K` successful
`undo` calls immediately followed by `K` `redo` calls leave the model equal
to its state immediately before the undos (the undo stack records genuine
executions — `UndoStackOK` — which holds in every reachable state, and `K`
is at most the undo-stack depth so each undo succeeds). -/
theorem undo_redo_roundtrip (reg : CommandTypeRegistry M K I R)
    (hc : ∀ k, HandlerContract (reg k)) (n : Nat)
    (st : ManagerState K I R) (m : M)
    (hok : UndoStackOK reg m st.undoStack) (hlen : n ≤ st.undoStack.length) :
    (runRedo reg n (runUndo reg n st m).1 (runUndo reg n st m).2).2 = m := by
  rw [undo_redo_aux reg hc n st m hok hlen]

/-- Witness for C4: with two pushed entries recorded in the history and the
model `[2, 1]`, two undos followed by two redos restore `[2, 1]`. -/
theorem undo_redo_roundtrip_witness :
    (runRedo pushReg 2
      (runUndo pushReg 2 ⟨[⟨(), 2, ()⟩, ⟨(), 1, ()⟩], []⟩ [2, 1]).1
      (runUndo pushReg 2 ⟨[⟨(), 2, ()⟩, ⟨(), 1, ()⟩], []⟩ [2, 1]).2).2 = [2, 1] :=
  undo_redo_roundtrip pushReg (fun _ => pushHandler_contract) 2
    ⟨[⟨(), 2, ()⟩, ⟨(), 1, ()⟩], []⟩ [2, 1]
    (.cons none rfl (.cons none rfl (.nil [])))
    (by decide)

/-- Counterexample to C7 as stated: on the push registry (whose handlers
satisfy the handler contract), executing A = push 1, B = push 2, undoing
twice, and executing C = push 3 from the empty model leaves the model
`[3]` — both A and B were undone, so the model does not reflect A at all
(1 is not an element), contradicting "the model reflects only A and C".
The redo-returns-false half of the claim does hold. -/
theorem redo_pruning_scenario_counterexample :
    (scenarioABC pushReg () 1 () 2 () 3 []).2 = [3] ∧
    1 ∉ (scenarioABC pushReg () 1 () 2 () 3 []).2 ∧
    (redo pushReg (scenarioABC pushReg () 1 () 2 () 3 []).1
      (scenarioABC pushReg () 1 () 2 () 3 []).2).1 = false := by
  decide

/-- C7 (amended): from a fresh manager, after executing effectful successful
commands A then B, calling `undo` twice, then executing effectful successful
command C, the next `redo` returns `false` (the redo entries were pruned when
C was executed) and, for handlers satisfying the undo contract, the model
reflects only C (both A and B were undone before C ran, so the final model is
C's execute applied to the initial model). -/
theorem redo_pruning_scenario (reg : CommandTypeRegistry M K I R)
    (hc : ∀ k, HandlerUndoContract (reg k))
    (kA kB kC : K) (iA iB iC : I) (m0 mA mB mC : M)
    (rA rB rC : R) (heA heB heC : Option Bool)
    (hA : (reg kA).execute m0 iA = (mA, .success rA heA)) (hneA : heA ≠ some false)
    (hB : (reg kB).execute mA iB = (mB, .success rB heB)) (hneB : heB ≠ some false)
    (hC : (reg kC).execute m0 iC = (mC, .success rC heC)) (hneC : heC ≠ some false) :
    (redo reg (scenarioABC reg kA iA kB iB kC iC m0).1
      (scenarioABC reg kA iA kB iB kC iC m0).2).1 = false ∧
    (scenarioABC reg kA iA kB iB kC iC m0).2 = mC := by
  have h1 : executeCommand reg (initState K I R) kA iA m0 =
      (.success rA heA, ⟨[⟨kA, iA, rA⟩], []⟩, mA) :=
    executeCommand_push reg _ kA iA m0 mA rA heA hA hneA
  have h2 : executeCommand reg ⟨[⟨kA, iA, rA⟩], []⟩ kB iB mA =
      (.success rB heB, ⟨[⟨kB, iB, rB⟩, ⟨kA, iA, rA⟩], []⟩, mB) :=
    executeCommand_push reg _ kB iB mA mB rB heB hB hneB
  have hu1 : undo reg ⟨[⟨kB, iB, rB⟩, ⟨kA, iA, rA⟩], []⟩ mB =
      (true, ⟨[⟨kA, iA, rA⟩], [⟨kB, iB, rB⟩]⟩, mA) := by
    rw [undo_cons reg _ mB ⟨kB, iB, rB⟩ [⟨kA, iA, rA⟩] rfl]
    rw [show (reg kB).undo mB iB rB = mA from hc kB mA iB mB rB heB hB]
  have hu2 : undo reg ⟨[⟨kA, iA, rA⟩], [⟨kB, iB, rB⟩]⟩ mA =
      (true, ⟨[], [⟨kA, iA, rA⟩, ⟨kB, iB, rB⟩]⟩, m0) := by
    rw [undo_cons reg _ mA ⟨kA, iA, rA⟩ [] rfl]
    rw [show (reg kA).undo mA iA rA = m0 from hc kA m0 iA mA rA heA hA]
  have h3 : executeCommand reg ⟨[], [⟨kA, iA, rA⟩, ⟨kB, iB, rB⟩]⟩ kC iC m0 =
      (.success rC heC, ⟨[⟨kC, iC, rC⟩], []⟩, mC) :=
    executeCommand_push reg _ kC iC m0 mC rC heC hC hneC
  have hscen : scenarioABC reg kA iA kB iB kC iC m0 = (⟨[⟨kC, iC, rC⟩], []⟩, mC) := by
    simp only [scenarioABC, h1, h2, hu1, hu2, h3]
  rw [hscen]
  exact ⟨rfl, rfl⟩

/-- Witness for C7 (amended): the concrete push-registry scenario; the final
model is `[3]`, exactly C's push applied to the initial empty model, and
`redo` returns `false`. -/
theorem redo_pruning_scenario_witness :
    (redo pushReg (scenarioABC pushReg () 1 () 2 () 3 []).1
      (scenarioABC pushReg () 1 () 2 () 3 []).2).1 = false ∧
    (scenarioABC pushReg () 1 () 2 () 3 []).2 = [3] :=
  redo_pruning_scenario pushReg
    (fun k m i m' r he hx => (pushHandler_contract m i m' r he hx).1)
    () () () 1 2 3 [] [1] [2, 1] [3] () () () none none none
    rfl (by decide) rfl (by decide) rfl (by decide)

/-- C9: the dispatch-by-name surface `commands` is definitionally the same
operation as `executeCommand`: for every registry, manager state, command
kind, instruction, and model it produces the same result, the same new
manager state and the same new model. -/
theorem commands_eq_executeCommand (reg : CommandTypeRegistry M K I R)
    (st : ManagerState K I R) (k : K) (i : I) (m : M) :
    commands reg st k i m = executeCommand reg st k i m := rfl

/-- The ghost invariant holds in every reachable state: pushes assign a fresh
identity, undo/redo permute the two stacks' concatenation, and nothing else
touches the entries. -/
theorem ghostInv_reachable (reg : CommandTypeRegistry M K I R) :
    ∀ (st : ManagerStateG K I R) (m : M), ReachableG reg st m → GhostInv st := by
  intro st m h
  induction h with
  | init m => exact ⟨by simp, by simp⟩
  | exec k i h ih =>
    rename_i st m
    rcases hx : (reg k).execute m i with ⟨m', res⟩
    rcases res with ⟨r, he⟩ | e
    · by_cases hcond : he = some true ∨ he = none
      · have hstate : (executeCommandG reg st k i m).2.1 =
            ⟨⟨st.nextId, k, i, r⟩ :: st.undoStack, [], st.nextId + 1⟩ := by
          simp [executeCommandG, hx, hcond]
        rw [hstate]
        obtain ⟨hnd, hbd⟩ := ih
        refine ⟨?_, ?_⟩
        · simp only [GhostInv, List.append_nil, List.map_cons, List.nodup_cons]
          refine ⟨?_, ?_⟩
          · intro hmem
            rcases List.mem_map.mp hmem with ⟨c, hc, hid⟩
            have := hbd c (List.mem_append_left _ hc)
            omega
          · have hnd' := hnd
            rw [List.map_append] at hnd'
            exact hnd'.of_append_left
        · intro c hc
          simp only [List.append_nil, List.mem_cons] at hc
          rcases hc with rfl | hc
          · show st.nextId < st.nextId + 1
            omega
          · have := hbd c (List.mem_append_left _ hc)
            show c.ghostId < st.nextId + 1
            omega
      · have hstate : (executeCommandG reg st k i m).2.1 = st := by
          simp [executeCommandG, hx, hcond]
        rw [hstate]; exact ih
    · have hstate : (executeCommandG reg st k i m).2.1 = st := by
        simp [executeCommandG, hx]
      rw [hstate]; exact ih
  | undoStep h ih =>
    rename_i st m
    rcases hstack : st.undoStack with _ | ⟨c, rest⟩
    · have hstate : (undoG reg st m).2.1 = st := by simp [undoG, hstack]
      rw [hstate]; exact ih
    · have hstate : (undoG reg st m).2.1 = ⟨rest, c :: st.redoStack, st.nextId⟩ := by
        simp [undoG, hstack]
      rw [hstate]
      obtain ⟨hnd, hbd⟩ := ih
      rw [hstack] at hnd hbd
      have hperm : (rest ++ c :: st.redoStack).Perm ((c :: rest) ++ st.redoStack) :=
        List.perm_middle.trans (List.Perm.refl _)
      refine ⟨((hperm.map _).nodup_iff).mpr ?_, ?_⟩
      · exact hnd
      · intro c' hc'
        exact hbd c' (hperm.mem_iff.mp hc')
  | redoStep h ih =>
    rename_i st m
    rcases hstack : st.redoStack with _ | ⟨c, rest⟩
    · have hstate : (redoG reg st m).2.1 = st := by simp [redoG, hstack]
      rw [hstate]; exact ih
    · have hstate : (redoG reg st m).2.1 = ⟨c :: st.undoStack, rest, st.nextId⟩ := by
        simp [redoG, hstack]
      rw [hstate]
      obtain ⟨hnd, hbd⟩ := ih
      rw [hstack] at hnd hbd
      have hperm : ((c :: st.undoStack) ++ rest).Perm (st.undoStack ++ c :: rest) := by
        simpa using List.perm_middle.symm
      refine ⟨((hperm.map _).nodup_iff).mpr ?_, ?_⟩
      · exact hnd
      · intro c' hc'
        exact hbd c' (hperm.mem_iff.mp hc')

/-- C8: in every reachable manager state the two stacks are disjoint and
duplicate-free — no entry identity occurs twice across the concatenation of
the undo and redo stacks, so every live Done Command is in exactly one of
the two stacks — and each successful `undo`/`redo` moves exactly the one top
entry from one stack onto the other in a single operation. -/
theorem stacks_disjoint_invariant (reg : CommandTypeRegistry M K I R)
    (st : ManagerStateG K I R) (m : M) (h : ReachableG reg st m) :
    ((st.undoStack ++ st.redoStack).map DoneCommandG.ghostId).Nodup ∧
    (∀ (c : DoneCommandG K I R) (rest : List (DoneCommandG K I R)),
      st.undoStack = c :: rest →
        (undoG reg st m).2.1.undoStack = rest ∧
        (undoG reg st m).2.1.redoStack = c :: st.redoStack) ∧
    (∀ (c : DoneCommandG K I R) (rest : List (DoneCommandG K I R)),
      st.redoStack = c :: rest →
        (redoG reg st m).2.1.undoStack = c :: st.undoStack ∧
        (redoG reg st m).2.1.redoStack = rest) := by
  refine ⟨(ghostInv_reachable reg st m h).1, ?_, ?_⟩
  · intro c rest hc
    constructor <;> simp [undoG, hc]
  · intro c rest hc
    constructor <;> simp [redoG, hc]

/-- Witness for C8: the state reached by one push execution from a fresh
manager has duplicate-free, disjoint stacks. -/
theorem stacks_disjoint_invariant_witness :
    ((((executeCommandG pushReg ⟨[], [], 0⟩ () 1 []).2.1).undoStack ++
      ((executeCommandG pushReg ⟨[], [], 0⟩ () 1 []).2.1).redoStack).map
        DoneCommandG.ghostId).Nodup :=
  (stacks_disjoint_invariant pushReg _ _ (.exec () 1 (.init []))).1

/-- Characterisation of the undo stack after a batch of `executeCommand`
calls: exactly the recorded entries (most recent on top) on top of the
original undo stack — `executeCommand` never removes anything from it. -/
theorem runExec_undoStack (reg : CommandTypeRegistry M K I R) :
    ∀ (cs : List (K × I)) (st : ManagerState K I R) (m : M),
      (runExec reg cs st m).1.undoStack =
        (doneEntries reg m cs).reverse ++ st.undoStack := by
  intro cs
  induction cs with
  | nil => intro st m; simp [runExec, doneEntries]
  | cons c rest ih =>
    rcases c with ⟨k, i⟩
    intro st m
    rcases hx : (reg k).execute m i with ⟨m', res⟩
    rcases res with ⟨r, he⟩ | e
    · by_cases hcond : he = some true ∨ he = none
      · have hexec : executeCommand reg st k i m =
            (.success r he, ⟨⟨k, i, r⟩ :: st.undoStack, []⟩, m') := by
          simp [executeCommand, clearRedoStack, hx, hcond]
        have hrun : runExec reg ((k, i) :: rest) st m =
            runExec reg rest ⟨⟨k, i, r⟩ :: st.undoStack, []⟩ m' := by
          simp [runExec, hexec]
        have hdone : doneEntries reg m ((k, i) :: rest) =
            ⟨k, i, r⟩ :: doneEntries reg m' rest := by
          simp [doneEntries, hx, hcond]
        rw [hrun, ih, hdone]
        simp
      · have hexec : executeCommand reg st k i m = (.success r he, st, m') := by
          simp [executeCommand, hx, hcond]
        have hrun : runExec reg ((k, i) :: rest) st m = runExec reg rest st m' := by
          simp [runExec, hexec]
        have hdone : doneEntries reg m ((k, i) :: rest) = doneEntries reg m' rest := by
          simp [doneEntries, hx, hcond]
        rw [hrun, ih, hdone]
    · have hexec : executeCommand reg st k i m = (.failure e, st, m') := by
        simp [executeCommand, hx]
      have hrun : runExec reg ((k, i) :: rest) st m = runExec reg rest st m' := by
        simp [runExec, hexec]
      have hdone : doneEntries reg m ((k, i) :: rest) = doneEntries reg m' rest := by
        simp [doneEntries, hx]
      rw [hrun, ih, hdone]

/-- An effectful, successful batch records one entry per command. -/
theorem doneEntries_length (reg : CommandTypeRegistry M K I R) :
    ∀ {m : M} {cs : List (K × I)}, EffectfulFrom reg m cs →
      (doneEntries reg m cs).length = cs.length := by
  intro m cs h
  induction h with
  | nil m => simp [doneEntries]
  | @cons m k i m' r he cs hx hne htail ih =>
    have hcond : he = some true ∨ he = none := by
      rcases he with _ | b
      · exact Or.inr rfl
      · rcases b with _ | _
        · exact absurd rfl hne
        · exact Or.inl rfl
    simp [doneEntries, hx, hcond, ih]

/-- C10: the undo stack is never truncated — `executeCommand` either leaves
it unchanged or pushes exactly one entry on top; `redo` likewise; `undo` is
the only operation removing an entry, exactly the top one (and nothing on an
empty stack); `clearRedoStack` leaves the undo stack untouched. Consequently
after `n` effectful, successful `executeCommand` calls from a fresh manager
with no intervening undos, the undo stack holds exactly the `n` recorded
entries in execution order (most recent on top). -/
theorem undoStack_growth_spec (reg : CommandTypeRegistry M K I R) :
    (∀ (st : ManagerState K I R) (k : K) (i : I) (m : M),
      (executeCommand reg st k i m).2.1.undoStack = st.undoStack ∨
      ∃ c, (executeCommand reg st k i m).2.1.undoStack = c :: st.undoStack) ∧
    (∀ (st : ManagerState K I R) (m : M),
      (redo reg st m).2.1.undoStack = st.undoStack ∨
      ∃ c, (redo reg st m).2.1.undoStack = c :: st.undoStack) ∧
    (∀ (st : ManagerState K I R) (m : M),
      st.undoStack = [] → (undo reg st m).2.1.undoStack = st.undoStack) ∧
    (∀ (st : ManagerState K I R) (m : M) (c : DoneCommand K I R)
        (rest : List (DoneCommand K I R)),
      st.undoStack = c :: rest → (undo reg st m).2.1.undoStack = rest) ∧
    (∀ st : ManagerState K I R, (clearRedoStack st).undoStack = st.undoStack) ∧
    (∀ (m : M) (cs : List (K × I)), EffectfulFrom reg m cs →
      (runExec reg cs (initState K I R) m).1.undoStack =
        (doneEntries reg m cs).reverse ∧
      (runExec reg cs (initState K I R) m).1.undoStack.length = cs.length) := by
  refine ⟨?_, ?_, ?_, ?_, fun st => rfl, ?_⟩
  · intro st k i m
    rcases hx : (reg k).execute m i with ⟨m', res⟩
    rcases res with ⟨r, he⟩ | e
    · by_cases hf : he = some false
      · subst hf
        left; rw [executeCommand_noEffect reg st k i m m' r hx]
      · right
        exact ⟨⟨k, i, r⟩, by rw [executeCommand_push reg st k i m m' r he hx hf]⟩
    · left; rw [executeCommand_failure reg st k i m m' e hx]
  · intro st m
    rcases hstack : st.redoStack with _ | ⟨c, rest⟩
    · left; rw [redo_nil reg st m hstack]
    · right; exact ⟨c, by rw [redo_cons reg st m c rest hstack]⟩
  · intro st m hnil; rw [undo_nil reg st m hnil]
  · intro st m c rest hc; rw [undo_cons reg st m c rest hc]
  · intro m cs heff
    refine ⟨?_, ?_⟩
    · rw [runExec_undoStack]
      simp [initState]
    · rw [runExec_undoStack]
      simp [initState, doneEntries_length reg heff]

/-- Witness for C10: executing two effectful pushes from a fresh manager
yields an undo stack of exactly the two recorded entries. -/
theorem undoStack_growth_spec_witness :
    (runExec pushReg [((), 1), ((), 2)] (initState Unit Nat Unit) []).1.undoStack =
      (doneEntries pushReg [] [((), 1), ((), 2)]).reverse ∧
    (runExec pushReg [((), 1), ((), 2)] (initState Unit Nat Unit) []).1.undoStack.length = 2 :=
  (undoStack_growth_spec pushReg).2.2.2.2.2 [] [((), 1), ((), 2)]
    (.cons rfl (by decide) (.cons rfl (by decide) (.nil [2, 1])))
